import Mathlib

/-!
Verification of the columnar base64 transcoder of
`src/Functions/FunctionBase64Conversion.h` (namespace `DB`).

Byte strings are modelled as `List Nat`; a `ColumnString` is the packed
string column of the source: one contiguous `chars` buffer holding every
row back-to-back, each row immediately followed by a `0` terminator byte,
plus an `offsets` table whose entry `i` is the exclusive end position of
row `i` (terminator included).

The per-row loop of `FunctionBase64Conversion::executeImpl` is embedded as
an explicit state machine (`runRows`): the state carries the borrowed
input column, the `source` read cursor, `src_offset_prev`, and the output
buffers `dst_data` / `dst_offsets` written so far.  The turbob64
primitives `_tb64e` / `_tb64d` are external collaborators; they are
parameters `enc dec : List Nat → List Nat` returning the bytes counted as
written (`outlen = (dec s).length`; `dec s = []` models the `outlen == 0`
failure sentinel of the decoder).  A concrete standard-base64 pair
`b64encode` / `b64decode` instantiates them for witnesses.
-/

set_option autoImplicit false

namespace DB

/-- A packed string column: `chars` is `ColumnString::getChars()` (all rows
back-to-back, each followed by a `0` terminator), `offsets` is
`ColumnString::getOffsets()`. -/
structure ColumnString where
  chars : List Nat
  offsets : List Nat
  deriving DecidableEq

namespace Base64Encode

/-- The source's `Base64Encode::getBufferSize`:
`((string_length - string_count) / 3 + string_count) * 4 + string_count`. -/
def getBufferSize (string_length string_count : Nat) : Nat :=
  ((string_length - string_count) / 3 + string_count) * 4 + string_count

end Base64Encode

namespace Base64Decode

/-- The source's `Base64Decode::getBufferSize`:
`((string_length - string_count) / 4 + string_count) * 3 + string_count`. -/
def getBufferSize (string_length string_count : Nat) : Nat :=
  ((string_length - string_count) / 4 + string_count) * 3 + string_count

end Base64Decode

namespace TryBase64Decode

/-- The source's `TryBase64Decode::getBufferSize` delegates to `Base64Decode`. -/
def getBufferSize (string_length string_count : Nat) : Nat :=
  Base64Decode.getBufferSize string_length string_count

end TryBase64Decode

/-- The three instantiations of the `FunctionBase64Conversion` template. -/
inductive Func where
  | base64Encode
  | base64Decode
  | tryBase64Decode
  deriving DecidableEq

/-- Dispatch of `Func::getBufferSize`. -/
def Func.getBufferSize : Func → Nat → Nat → Nat
  | .base64Encode => Base64Encode.getBufferSize
  | .base64Decode => Base64Decode.getBufferSize
  | .tryBase64Decode => TryBase64Decode.getBufferSize

/-- Line 98 of the source:
`size_t reserve = Func::getBufferSize(input->getChars().size(), input->size());`
(`input->size()` is the number of offsets). -/
def reserve (f : Func) (input : ColumnString) : Nat :=
  f.getBufferSize input.chars.length input.offsets.length

/-- The packed `chars` buffer holding the given rows: each row followed by
its `0` terminator byte. -/
def flattenRows : List (List Nat) → List Nat
  | [] => []
  | r :: rest => r ++ 0 :: flattenRows rest

/-- The offsets table for the given rows when their packed bytes start at
position `base`: entry `i` is the exclusive end of row `i`, terminator
included. -/
def offsetsFrom (base : Nat) : List (List Nat) → List Nat
  | [] => []
  | r :: rest => (base + r.length + 1) :: offsetsFrom (base + r.length + 1) rest

/-- The canonical packed column holding the given rows. -/
def packRows (rs : List (List Nat)) : ColumnString :=
  ⟨flattenRows rs, offsetsFrom 0 rs⟩

/-- Row extraction as the loop performs it: for each offset,
`srclen = off - src_offset_prev - 1`, the row is the `srclen` bytes at the
`source` cursor, and the cursor advances by `srclen + 1`. -/
def readRows (chars : List Nat) : List Nat → Nat → Nat → List (List Nat)
  | [], _, _ => []
  | off :: rest, source, prev =>
    ((chars.drop source).take (off - prev - 1)) ::
      readRows chars rest (source + (off - prev - 1) + 1) off

/-- The rows of a column, as `executeImpl` reads them (cursors start at 0). -/
def inputRows (c : ColumnString) : List (List Nat) :=
  readRows c.chars c.offsets 0 0

/-- A column is well formed when it is exactly the packed form of its own
rows: non-decreasing offsets, all rows terminated, no slack bytes. -/
def wellFormed (c : ColumnString) : Prop :=
  packRows (inputRows c) = c

/-- The packed-column invariant of the spec: offsets are non-decreasing,
the data length equals the final offset (0 for an empty batch), and the
byte just before each offset — the position the next row excludes — is the
`0` terminator of that row. -/
def columnInvariant (c : ColumnString) : Prop :=
  c.offsets.Chain' (fun a b => a ≤ b)
  ∧ c.chars.length = c.offsets.getLastD 0
  ∧ ∀ i, i < c.offsets.length → c.chars[(c.offsets.getD i 0) - 1]? = some 0

/-- The mode dispatch of the loop body (lines 115-160 of the source) for
one row `s`, returning the bytes counted as written or the thrown error:
* `base64Encode` invokes the encode primitive unconditionally;
* `base64Decode` skips empty rows, and throws `INCORRECT_DATA` carrying
  the row's raw bytes when the primitive reports `outlen == 0`;
* `tryBase64Decode` skips empty rows and rolls the write cursor back to
  the savepoint on failure, so a failed row contributes no bytes
  (`dec s = []` models the failure). -/
def rowTranscode (f : Func) (enc dec : List Nat → List Nat) (s : List Nat) :
    Except (List Nat) (List Nat) :=
  match f with
  | .base64Encode => .ok (enc s)
  | .base64Decode =>
    if s.length = 0 then .ok []
    else if (dec s).length = 0 then .error s
    else .ok (dec s)
  | .tryBase64Decode =>
    if s.length = 0 then .ok []
    else .ok (dec s)

/-- The state of the per-row loop: the borrowed input column plus the
cursors and output buffers of `executeImpl`. -/
structure TranscodeState where
  input : ColumnString
  source : Nat
  src_offset_prev : Nat
  dst_data : List Nat
  dst_offsets : List Nat
  deriving DecidableEq

/-- The loop of lines 110-173: one iteration per offset.  Each successful
row appends its written bytes plus the `'\0'` terminator to `dst_data` and
records `dst_offsets[row] = dst_pos - dst`; a thrown error stops the loop
with the state reached so far. -/
def runRows (f : Func) (enc dec : List Nat → List Nat) :
    TranscodeState → List Nat → TranscodeState × Option (List Nat)
  | st, [] => (st, none)
  | st, off :: rest =>
    match rowTranscode f enc dec
        ((st.input.chars.drop st.source).take (off - st.src_offset_prev - 1)) with
    | .error e => (st, some e)
    | .ok w =>
      runRows f enc dec
        { input := st.input
          source := st.source + (off - st.src_offset_prev - 1) + 1
          src_offset_prev := off
          dst_data := st.dst_data ++ w ++ [0]
          dst_offsets := st.dst_offsets ++ [st.dst_data.length + w.length + 1] } rest

/-- The state at entry of the loop: cursors at 0, output buffers empty. -/
def initState (input : ColumnString) : TranscodeState :=
  ⟨input, 0, 0, [], []⟩

/-- The source's `FunctionBase64Conversion::executeImpl`: run the loop over all
`input_rows_count = input->size()` offsets; on success the output column
is the written data (after the final shrinking `resize(dst_pos - dst)`)
with its offsets, otherwise the thrown error escapes. -/
def executeImpl (f : Func) (enc dec : List Nat → List Nat) (input : ColumnString) :
    Except (List Nat) ColumnString :=
  match runRows f enc dec (initState input) input.offsets with
  | (_, some e) => Except.error e
  | (st, none) => Except.ok ⟨st.dst_data, st.dst_offsets⟩

/-- Row-by-row transcription of a list of rows: the functional content of
the loop, used to characterise `runRows`. -/
def transcodeRows (f : Func) (enc dec : List Nat → List Nat) :
    List (List Nat) → Except (List Nat) (List (List Nat))
  | [] => .ok []
  | s :: rest =>
    match rowTranscode f enc dec s with
    | .error e => .error e
    | .ok w =>
      match transcodeRows f enc dec rest with
      | .error e => .error e
      | .ok ws => .ok (w :: ws)

/-- What one row becomes under (strict or lenient) decoding when no error
escapes: empty rows stay empty, otherwise the primitive's output stands. -/
def decodeRow (dec : List Nat → List Nat) (s : List Nat) : List Nat :=
  if s.length = 0 then [] else dec s

/-- The column produced by the encode mode (which never throws). -/
def encodeColumn (enc : List Nat → List Nat) (input : ColumnString) : ColumnString :=
  packRows ((inputRows input).map enc)

/-- The column produced by the lenient decode mode (which never throws). -/
def tryDecodeColumn (dec : List Nat → List Nat) (input : ColumnString) : ColumnString :=
  packRows ((inputRows input).map (decodeRow dec))

/-- Character of the standard base64 alphabet for a 6-bit value. -/
def b64char (n : Nat) : Nat :=
  if n < 26 then 65 + n
  else if n < 52 then 71 + n
  else if n < 62 then n - 4
  else if n = 62 then 43
  else 47

/-- Concrete standard base64 encoding with `=` padding, a reference
implementation of the encode primitive contract. -/
def b64encode : List Nat → List Nat
  | [] => []
  | [a] => [b64char (a / 4), b64char (a % 4 * 16), 61, 61]
  | [a, b] => [b64char (a / 4), b64char (a % 4 * 16 + b / 16), b64char (b % 16 * 4), 61]
  | a :: b :: c :: rest =>
    b64char (a / 4) :: b64char (a % 4 * 16 + b / 16) ::
      b64char (b % 16 * 4 + c / 64) :: b64char (c % 64) :: b64encode rest

/-- Six-bit value of a standard base64 alphabet character. -/
def b64val (c : Nat) : Option Nat :=
  if 65 ≤ c ∧ c ≤ 90 then some (c - 65)
  else if 97 ≤ c ∧ c ≤ 122 then some (c - 71)
  else if 48 ≤ c ∧ c ≤ 57 then some (c + 4)
  else if c = 43 then some 62
  else if c = 47 then some 63
  else none

/-- Strict base64 decoding of full 4-character blocks, `=`-padded. -/
def b64decodeAux : List Nat → Option (List Nat)
  | [] => some []
  | a :: b :: c :: d :: rest =>
    match b64val a, b64val b with
    | some va, some vb =>
      if c = 61 then
        if d = 61 ∧ rest = [] ∧ vb % 16 = 0 then some [va * 4 + vb / 16] else none
      else
        match b64val c with
        | some vc =>
          if d = 61 then
            if rest = [] ∧ vc % 4 = 0 then
              some [va * 4 + vb / 16, vb % 16 * 16 + vc / 4]
            else none
          else
            match b64val d with
            | some vd =>
              match b64decodeAux rest with
              | some tail =>
                some ((va * 4 + vb / 16) :: (vb % 16 * 16 + vc / 4) :: (vc % 4 * 64 + vd) :: tail)
              | none => none
            | none => none
        | none => none
    | _, _ => none
  | _ => none

/-- Concrete decode primitive: the decoded bytes, or `[]` — the
`outlen == 0` failure sentinel — on invalid input. -/
def b64decode (s : List Nat) : List Nat :=
  (b64decodeAux s).getD []

/-- The encode output bound exactly as the claim words it:
`((total_input_bytes - row_count) / 3 + row_count) * 4` with
`total_input_bytes` the sum of the row lengths excluding terminators, the
`row_count` terminator bytes being said to be added on top by the caller. -/
def specEncodeOutputBound (total_input_bytes row_count : Nat) : Nat :=
  ((total_input_bytes - row_count) / 3 + row_count) * 4

theorem flattenRows_length (rs : List (List Nat)) :
    (flattenRows rs).length = (rs.map List.length).sum + rs.length := by
  induction rs with
  | nil => simp [flattenRows]
  | cons r rest ih => simp [flattenRows, ih]; omega

theorem offsetsFrom_length (rs : List (List Nat)) :
    ∀ base : Nat, (offsetsFrom base rs).length = rs.length := by
  induction rs with
  | nil => intro base; simp [offsetsFrom]
  | cons r rest ih => intro base; simp [offsetsFrom, ih]

theorem readRows_length (chars : List Nat) (offs : List Nat) :
    ∀ source prev : Nat, (readRows chars offs source prev).length = offs.length := by
  induction offs with
  | nil => intro source prev; simp [readRows]
  | cons off rest ih => intro source prev; simp [readRows, ih]

theorem readRows_pack (rs : List (List Nat)) :
    ∀ pre : List Nat,
      readRows (pre ++ flattenRows rs) (offsetsFrom pre.length rs)
        pre.length pre.length = rs := by
  induction rs with
  | nil => intro pre; simp [flattenRows, offsetsFrom, readRows]
  | cons r rest ih =>
    intro pre
    have hsrclen : pre.length + r.length + 1 - pre.length - 1 = r.length := by omega
    simp only [flattenRows, offsetsFrom, readRows, hsrclen]
    have hhead : ((pre ++ (r ++ 0 :: flattenRows rest)).drop pre.length).take r.length
        = r := by
      rw [List.drop_left pre _]
      exact List.take_left r (0 :: flattenRows rest)
    have htail : readRows (pre ++ (r ++ 0 :: flattenRows rest))
        (offsetsFrom (pre.length + r.length + 1) rest)
        (pre.length + r.length + 1) (pre.length + r.length + 1) = rest := by
      have := ih (pre ++ r ++ [0])
      have hlen : (pre ++ r ++ [0]).length = pre.length + r.length + 1 := by
        simp only [List.length_append, List.length_cons, List.length_nil]
      have hchars : (pre ++ r ++ [0]) ++ flattenRows rest
          = pre ++ (r ++ 0 :: flattenRows rest) := by
        simp [List.append_assoc]
      rw [hlen, hchars] at this
      exact this
    rw [hhead, htail]

theorem inputRows_pack (rs : List (List Nat)) : inputRows (packRows rs) = rs := by
  have := readRows_pack rs []
  simpa [inputRows, packRows] using this

theorem transcodeRows_length (f : Func) (enc dec : List Nat → List Nat) :
    ∀ (rs ws : List (List Nat)),
      transcodeRows f enc dec rs = .ok ws → ws.length = rs.length := by
  intro rs
  induction rs with
  | nil => intro ws h; simp [transcodeRows] at h; subst h; rfl
  | cons s rest ih =>
    intro ws h
    simp only [transcodeRows] at h
    cases hr : rowTranscode f enc dec s with
    | error e => rw [hr] at h; cases h
    | ok w =>
      rw [hr] at h
      cases ht : transcodeRows f enc dec rest with
      | error e => rw [ht] at h; cases h
      | ok ws' =>
        rw [ht] at h
        cases h
        simp [ih ws' ht]

theorem transcodeRows_encode (enc dec : List Nat → List Nat) :
    ∀ rs : List (List Nat),
      transcodeRows .base64Encode enc dec rs = .ok (rs.map enc) := by
  intro rs
  induction rs with
  | nil => simp [transcodeRows]
  | cons s rest ih => simp [transcodeRows, rowTranscode, ih]

theorem transcodeRows_lenient (enc dec : List Nat → List Nat) :
    ∀ rs : List (List Nat),
      transcodeRows .tryBase64Decode enc dec rs = .ok (rs.map (decodeRow dec)) := by
  intro rs
  induction rs with
  | nil => simp [transcodeRows]
  | cons s rest ih =>
    by_cases hs : s.length = 0
    · simp [transcodeRows, rowTranscode, hs, ih, decodeRow]
    · simp [transcodeRows, rowTranscode, hs, ih, decodeRow]

theorem transcodeRows_strict_ok (enc dec : List Nat → List Nat) :
    ∀ rs : List (List Nat),
      (∀ s ∈ rs, s.length = 0 ∨ (dec s).length ≠ 0) →
      transcodeRows .base64Decode enc dec rs = .ok (rs.map (decodeRow dec)) := by
  intro rs
  induction rs with
  | nil => intro _; simp [transcodeRows]
  | cons s rest ih =>
    intro h
    have hs := h s (by simp)
    have hrest : ∀ t ∈ rest, t.length = 0 ∨ (dec t).length ≠ 0 := by
      intro t ht; exact h t (by simp [ht])
    rcases hs with hs | hs
    · simp [transcodeRows, rowTranscode, hs, ih hrest, decodeRow]
    · by_cases hl : s.length = 0
      · simp [transcodeRows, rowTranscode, hl, ih hrest, decodeRow]
      · simp [transcodeRows, rowTranscode, hl, hs, ih hrest, decodeRow]

theorem transcodeRows_strict_ok_inv (enc dec : List Nat → List Nat) :
    ∀ rs ws : List (List Nat),
      transcodeRows .base64Decode enc dec rs = .ok ws →
      ws = rs.map (decodeRow dec) := by
  intro rs
  induction rs with
  | nil => intro ws h; simp [transcodeRows] at h; subst h; rfl
  | cons s rest ih =>
    intro ws h
    simp only [transcodeRows] at h
    cases hr : rowTranscode .base64Decode enc dec s with
    | error e => rw [hr] at h; cases h
    | ok w =>
      rw [hr] at h
      cases ht : transcodeRows .base64Decode enc dec rest with
      | error e => rw [ht] at h; cases h
      | ok ws' =>
        rw [ht] at h
        cases h
        have hw : w = decodeRow dec s := by
          by_cases hs : s.length = 0
          · simp [rowTranscode, hs] at hr
            simp [decodeRow, hs, ← hr]
          · by_cases hd : (dec s).length = 0
            · simp [rowTranscode, hs, hd] at hr
            · simp [rowTranscode, hs, hd] at hr
              simp [decodeRow, hs, ← hr]
        simp [hw, ih ws' ht]

theorem transcodeRows_strict_err (enc dec : List Nat → List Nat)
    (bad : List Nat) (rest : List (List Nat))
    (hbad : bad.length ≠ 0) (hdecbad : (dec bad).length = 0) :
    ∀ pre : List (List Nat),
      (∀ s ∈ pre, s.length = 0 ∨ (dec s).length ≠ 0) →
      transcodeRows .base64Decode enc dec (pre ++ bad :: rest) = .error bad := by
  intro pre
  induction pre with
  | nil =>
    intro _
    simp [transcodeRows, rowTranscode, hbad, hdecbad]
  | cons p pre' ih =>
    intro h
    have hp := h p (by simp)
    have hpre' : ∀ s ∈ pre', s.length = 0 ∨ (dec s).length ≠ 0 := by
      intro t ht; exact h t (by simp [ht])
    rcases hp with hp | hp
    · simp [transcodeRows, rowTranscode, hp, ih hpre']
    · by_cases hl : p.length = 0
      · simp [transcodeRows, rowTranscode, hl, ih hpre']
      · simp [transcodeRows, rowTranscode, hl, hp, ih hpre']

theorem transcodeRows_strict_error_ne (enc dec : List Nat → List Nat) :
    ∀ (rs : List (List Nat)) (e : List Nat),
      transcodeRows .base64Decode enc dec rs = .error e → e ≠ [] := by
  intro rs
  induction rs with
  | nil => intro e h; simp [transcodeRows] at h
  | cons s rest ih =>
    intro e h
    simp only [transcodeRows] at h
    cases hr : rowTranscode .base64Decode enc dec s with
    | error e' =>
      rw [hr] at h
      cases h
      by_cases hs : s.length = 0
      · simp [rowTranscode, hs] at hr
      · by_cases hd : (dec s).length = 0
        · simp [rowTranscode, hs, hd] at hr
          subst hr
          exact fun hnil => hs (by simp [hnil])
        · simp [rowTranscode, hs, hd] at hr
    | ok w =>
      rw [hr] at h
      cases ht : transcodeRows .base64Decode enc dec rest with
      | error e' =>
        rw [ht] at h
        cases h
        exact ih _ ht
      | ok ws => rw [ht] at h; cases h

theorem runRows_input (f : Func) (enc dec : List Nat → List Nat) :
    ∀ (offs : List Nat) (st : TranscodeState),
      (runRows f enc dec st offs).1.input = st.input := by
  intro offs
  induction offs with
  | nil => intro st; simp [runRows]
  | cons off rest ih =>
    intro st
    simp only [runRows]
    cases hr : rowTranscode f enc dec
        ((st.input.chars.drop st.source).take (off - st.src_offset_prev - 1)) with
    | error e => simp
    | ok w => exact ih _

theorem runRows_ok (f : Func) (enc dec : List Nat → List Nat) :
    ∀ (offs : List Nat) (st : TranscodeState) (ws : List (List Nat)),
      transcodeRows f enc dec (readRows st.input.chars offs st.source st.src_offset_prev)
        = .ok ws →
      (runRows f enc dec st offs).2 = none
      ∧ (runRows f enc dec st offs).1.dst_data = st.dst_data ++ flattenRows ws
      ∧ (runRows f enc dec st offs).1.dst_offsets
          = st.dst_offsets ++ offsetsFrom st.dst_data.length ws := by
  intro offs
  induction offs with
  | nil =>
    intro st ws h
    simp only [readRows, transcodeRows] at h
    cases h
    simp [runRows, flattenRows, offsetsFrom]
  | cons off rest ih =>
    intro st ws h
    simp only [readRows, transcodeRows] at h
    cases hr : rowTranscode f enc dec
        ((st.input.chars.drop st.source).take (off - st.src_offset_prev - 1)) with
    | error e => rw [hr] at h; cases h
    | ok w =>
      rw [hr] at h
      cases ht : transcodeRows f enc dec
          (readRows st.input.chars rest
            (st.source + (off - st.src_offset_prev - 1) + 1) off) with
      | error e => rw [ht] at h; cases h
      | ok ws' =>
        rw [ht] at h
        cases h
        have hih := ih
          { input := st.input
            source := st.source + (off - st.src_offset_prev - 1) + 1
            src_offset_prev := off
            dst_data := st.dst_data ++ w ++ [0]
            dst_offsets := st.dst_offsets ++ [st.dst_data.length + w.length + 1] }
          ws' ht
        obtain ⟨h1, h2, h3⟩ := hih
        refine ⟨?_, ?_, ?_⟩
        · simp only [runRows, hr]
          exact h1
        · simp only [runRows, hr]
          rw [h2]
          simp [flattenRows, List.append_assoc]
        · simp only [runRows, hr]
          rw [h3]
          have hlen : (st.dst_data ++ w ++ [0]).length
              = st.dst_data.length + w.length + 1 := by
            simp only [List.length_append, List.length_cons, List.length_nil]
          rw [hlen]
          simp [offsetsFrom, List.append_assoc]

theorem runRows_err (f : Func) (enc dec : List Nat → List Nat) :
    ∀ (offs : List Nat) (st : TranscodeState) (e : List Nat),
      transcodeRows f enc dec (readRows st.input.chars offs st.source st.src_offset_prev)
        = .error e →
      (runRows f enc dec st offs).2 = some e := by
  intro offs
  induction offs with
  | nil => intro st e h; simp [readRows, transcodeRows] at h
  | cons off rest ih =>
    intro st e h
    simp only [readRows, transcodeRows] at h
    cases hr : rowTranscode f enc dec
        ((st.input.chars.drop st.source).take (off - st.src_offset_prev - 1)) with
    | error e' =>
      rw [hr] at h
      cases h
      simp [runRows, hr]
    | ok w =>
      rw [hr] at h
      cases ht : transcodeRows f enc dec
          (readRows st.input.chars rest
            (st.source + (off - st.src_offset_prev - 1) + 1) off) with
      | error e' =>
        rw [ht] at h
        cases h
        simp only [runRows, hr]
        exact ih _ _ ht
      | ok ws => rw [ht] at h; cases h

theorem executeImpl_ok (f : Func) (enc dec : List Nat → List Nat)
    (input : ColumnString) (ws : List (List Nat))
    (h : transcodeRows f enc dec (inputRows input) = .ok ws) :
    executeImpl f enc dec input = .ok (packRows ws) := by
  have hshape : transcodeRows f enc dec
      (readRows (initState input).input.chars input.offsets (initState input).source
        (initState input).src_offset_prev) = .ok ws := h
  obtain ⟨h1, h2, h3⟩ := runRows_ok f enc dec input.offsets (initState input) ws hshape
  unfold executeImpl
  rcases hrun : runRows f enc dec (initState input) input.offsets with ⟨st, o⟩
  rw [hrun] at h1 h2 h3
  simp only at h1 h2 h3
  subst h1
  simp only [initState] at h2 h3
  simp only [List.nil_append] at h2 h3
  simp [packRows, h2, h3]

theorem executeImpl_err (f : Func) (enc dec : List Nat → List Nat)
    (input : ColumnString) (e : List Nat)
    (h : transcodeRows f enc dec (inputRows input) = .error e) :
    executeImpl f enc dec input = .error e := by
  have hshape : transcodeRows f enc dec
      (readRows (initState input).input.chars input.offsets (initState input).source
        (initState input).src_offset_prev) = .error e := h
  have h2 := runRows_err f enc dec input.offsets (initState input) e hshape
  unfold executeImpl
  rcases hrun : runRows f enc dec (initState input) input.offsets with ⟨st, o⟩
  rw [hrun] at h2
  simp only at h2
  subst h2
  rfl

theorem executeImpl_ok_inv (f : Func) (enc dec : List Nat → List Nat)
    (input : ColumnString) (c : ColumnString)
    (h : executeImpl f enc dec input = .ok c) :
    ∃ ws, transcodeRows f enc dec (inputRows input) = .ok ws ∧ c = packRows ws := by
  cases ht : transcodeRows f enc dec (inputRows input) with
  | error e =>
    rw [executeImpl_err f enc dec input e ht] at h
    cases h
  | ok ws =>
    refine ⟨ws, rfl, ?_⟩
    rw [executeImpl_ok f enc dec input ws ht] at h
    cases h
    rfl

theorem executeImpl_err_inv (f : Func) (enc dec : List Nat → List Nat)
    (input : ColumnString) (e : List Nat)
    (h : executeImpl f enc dec input = .error e) :
    transcodeRows f enc dec (inputRows input) = .error e := by
  cases ht : transcodeRows f enc dec (inputRows input) with
  | error e' =>
    rw [executeImpl_err f enc dec input e' ht] at h
    cases h
    rfl
  | ok ws =>
    rw [executeImpl_ok f enc dec input ws ht] at h
    cases h

theorem executeImpl_encode_eq (enc dec : List Nat → List Nat) (input : ColumnString) :
    executeImpl .base64Encode enc dec input = .ok (encodeColumn enc input) :=
  executeImpl_ok _ enc dec input _ (transcodeRows_encode enc dec (inputRows input))

theorem executeImpl_lenient_eq (enc dec : List Nat → List Nat) (input : ColumnString) :
    executeImpl .tryBase64Decode enc dec input = .ok (tryDecodeColumn dec input) :=
  executeImpl_ok _ enc dec input _ (transcodeRows_lenient enc dec (inputRows input))

theorem sum_enc_bound (g : List Nat → List Nat) :
    ∀ rs : List (List Nat),
      (∀ s ∈ rs, (g s).length ≤ 4 * (s.length / 3 + 1)) →
      ((rs.map g).map List.length).sum
        ≤ ((rs.map List.length).sum / 3 + rs.length) * 4 := by
  intro rs
  induction rs with
  | nil => intro _; simp
  | cons s rest ih =>
    intro h
    have hs := h s (by simp)
    have hrest := ih (fun t ht => h t (by simp [ht]))
    simp only [List.map_cons, List.sum_cons, List.length_cons]
    have hdiv : s.length / 3 + (rest.map List.length).sum / 3
        ≤ (s.length + (rest.map List.length).sum) / 3 := by omega
    omega

theorem sum_dec_bound (g : List Nat → List Nat) :
    ∀ rs : List (List Nat),
      (∀ s ∈ rs, (g s).length ≤ 3 * (s.length / 4 + 1)) →
      ((rs.map g).map List.length).sum
        ≤ ((rs.map List.length).sum / 4 + rs.length) * 3 := by
  intro rs
  induction rs with
  | nil => intro _; simp
  | cons s rest ih =>
    intro h
    have hs := h s (by simp)
    have hrest := ih (fun t ht => h t (by simp [ht]))
    simp only [List.map_cons, List.sum_cons, List.length_cons]
    have hdiv : s.length / 4 + (rest.map List.length).sum / 4
        ≤ (s.length + (rest.map List.length).sum) / 4 := by omega
    omega

theorem offsetsFrom_chain (rs : List (List Nat)) :
    ∀ base : Nat, (offsetsFrom base rs).Chain' (fun a b => a ≤ b) := by
  induction rs with
  | nil => intro base; simp [offsetsFrom]
  | cons r rest ih =>
    intro base
    cases rest with
    | nil => simp [offsetsFrom]
    | cons r2 rest2 =>
      have htail := ih (base + r.length + 1)
      simp only [offsetsFrom] at htail ⊢
      rw [List.chain'_cons]
      exact ⟨by omega, htail⟩

theorem offsetsFrom_getLastD (rs : List (List Nat)) :
    ∀ base : Nat,
      (offsetsFrom base rs).getLastD base = base + (flattenRows rs).length := by
  induction rs with
  | nil => intro base; simp [offsetsFrom, flattenRows]
  | cons r rest ih =>
    intro base
    simp only [offsetsFrom, flattenRows, List.getLastD_cons]
    rw [ih (base + r.length + 1)]
    simp only [List.length_append, List.length_cons]
    omega

theorem flattenRows_terminator (rs : List (List Nat)) :
    ∀ (pre : List Nat) (i : Nat), i < rs.length →
      (pre ++ flattenRows rs)[(offsetsFrom pre.length rs).getD i 0 - 1]? = some 0 := by
  induction rs with
  | nil => intro pre i hi; simp at hi
  | cons r rest ih =>
    intro pre i hi
    cases i with
    | zero =>
      simp only [offsetsFrom, flattenRows, List.getD_cons_zero]
      have hidx : pre.length + r.length + 1 - 1 = (pre ++ r).length := by
        simp only [List.length_append]; omega
      rw [hidx]
      have hsplit : pre ++ (r ++ 0 :: flattenRows rest)
          = (pre ++ r) ++ 0 :: flattenRows rest := by
        simp [List.append_assoc]
      rw [hsplit, List.getElem?_append_right (Nat.le_refl _)]
      simp
    | succ i =>
      simp only [offsetsFrom, flattenRows, List.getD_cons_succ]
      have hlt : i < rest.length := by
        simp only [List.length_cons] at hi
        omega
      have := ih (pre ++ r ++ [0]) i hlt
      have hlen : (pre ++ r ++ [0]).length = pre.length + r.length + 1 := by
        simp only [List.length_append, List.length_cons, List.length_nil]
      have hchars : (pre ++ r ++ [0]) ++ flattenRows rest
          = pre ++ (r ++ 0 :: flattenRows rest) := by
        simp [List.append_assoc]
      rw [hlen, hchars] at this
      exact this

theorem packRows_invariant (rs : List (List Nat)) : columnInvariant (packRows rs) := by
  refine ⟨offsetsFrom_chain rs 0, ?_, ?_⟩
  · show (flattenRows rs).length = (offsetsFrom 0 rs).getLastD 0
    rw [offsetsFrom_getLastD rs 0]
    omega
  · intro i hi
    show (flattenRows rs)[(offsetsFrom 0 rs).getD i 0 - 1]? = some 0
    have := flattenRows_terminator rs [] i (by
      simpa [packRows, offsetsFrom_length] using hi)
    simpa using this

theorem map_decodeRow_encode (enc dec : List Nat → List Nat) (henc0 : enc [] = []) :
    ∀ rows : List (List Nat),
      (∀ s ∈ rows, s ≠ [] → enc s ≠ []) →
      (∀ s ∈ rows, dec (enc s) = s) →
      (rows.map enc).map (decodeRow dec) = rows := by
  intro rows
  induction rows with
  | nil => intro _ _; simp
  | cons s rest ih =>
    intro h1 h2
    have hrest := ih (fun t ht h => h1 t (by simp [ht]) h)
      (fun t ht => h2 t (by simp [ht]))
    simp only [List.map_cons, hrest]
    have hhead : decodeRow dec (enc s) = s := by
      by_cases hse : s = []
      · subst hse
        simp [decodeRow, henc0]
      · have hne : enc s ≠ [] := h1 s (by simp) hse
        have hlen : ¬ (enc s).length = 0 := fun h0 => hne (List.length_eq_zero.mp h0)
        simp [decodeRow, hlen, h2 s (by simp)]
    rw [hhead]

theorem encoded_rows_decodable (enc dec : List Nat → List Nat) (henc0 : enc [] = []) :
    ∀ rows : List (List Nat),
      (∀ s ∈ rows, s ≠ [] → enc s ≠ []) →
      (∀ s ∈ rows, dec (enc s) = s) →
      ∀ t ∈ rows.map enc, t.length = 0 ∨ (dec t).length ≠ 0 := by
  intro rows h1 h2 t ht
  obtain ⟨s, hs, rfl⟩ := List.mem_map.mp ht
  by_cases hse : s = []
  · subst hse
    left
    simp [henc0]
  · right
    rw [h2 s hs]
    intro h0
    exact hse (List.length_eq_zero.mp h0)

/-- C1: strict decode of the encode of any well-formed column returns the
original column.  The turbob64 primitives are assumed to satisfy their
contract: encoding an empty row writes nothing, encoding a non-empty row
writes at least one byte, and decoding an encoded row recovers the row. -/
theorem strict_decode_of_encode_roundtrip (enc dec : List Nat → List Nat)
    (input : ColumnString) (hwf : wellFormed input)
    (henc0 : enc [] = [])
    (hne : ∀ s ∈ inputRows input, s ≠ [] → enc s ≠ [])
    (hrt : ∀ s ∈ inputRows input, dec (enc s) = s) :
    executeImpl .base64Encode enc dec input = .ok (encodeColumn enc input)
    ∧ executeImpl .base64Decode enc dec (encodeColumn enc input) = .ok input := by
  refine ⟨executeImpl_encode_eq enc dec input, ?_⟩
  have hrows : inputRows (encodeColumn enc input) = (inputRows input).map enc :=
    inputRows_pack _
  have h1 : transcodeRows .base64Decode enc dec (inputRows (encodeColumn enc input))
      = .ok (((inputRows input).map enc).map (decodeRow dec)) := by
    rw [hrows]
    exact transcodeRows_strict_ok enc dec _
      (encoded_rows_decodable enc dec henc0 _ hne hrt)
  rw [map_decodeRow_encode enc dec henc0 _ hne hrt] at h1
  have h2 := executeImpl_ok _ enc dec _ _ h1
  rw [hwf] at h2
  exact h2

/-- C1 witness: round-trip on the concrete column with rows
`"abc"`, `""`, `"a"` using the reference base64 primitives. -/
theorem strict_decode_of_encode_roundtrip_witness :
    executeImpl .base64Encode b64encode b64decode (packRows [[97, 98, 99], [], [97]])
      = .ok (encodeColumn b64encode (packRows [[97, 98, 99], [], [97]]))
    ∧ executeImpl .base64Decode b64encode b64decode
        (encodeColumn b64encode (packRows [[97, 98, 99], [], [97]]))
      = .ok (packRows [[97, 98, 99], [], [97]]) :=
  strict_decode_of_encode_roundtrip b64encode b64decode
    (packRows [[97, 98, 99], [], [97]]) rfl rfl (by decide) (by decide)

/-- C2: strict decode throws on the first row whose non-empty content the
decode primitive rejects; the error payload is that row's raw bytes and no
output column is produced. -/
theorem strict_decode_first_invalid_aborts (enc dec : List Nat → List Nat)
    (input : ColumnString) (pre rest : List (List Nat)) (bad : List Nat)
    (hrows : inputRows input = pre ++ bad :: rest)
    (hpre : ∀ s ∈ pre, s = [] ∨ dec s ≠ [])
    (hbad : bad ≠ []) (hdecbad : dec bad = []) :
    executeImpl .base64Decode enc dec input = .error bad := by
  apply executeImpl_err
  rw [hrows]
  apply transcodeRows_strict_err enc dec bad rest
    (fun h0 => hbad (List.length_eq_zero.mp h0))
    (by simp [hdecbad])
  intro s hs
  rcases hpre s hs with h | h
  · left
    simp [h]
  · right
    exact fun h0 => h (List.length_eq_zero.mp h0)

/-- C2 witness: strict decode of `["YWJj", "not-valid!!"]` fails with the
raw bytes of `"not-valid!!"`. -/
theorem strict_decode_first_invalid_aborts_witness :
    executeImpl .base64Decode b64encode b64decode
        (packRows [[89, 87, 74, 106],
          [110, 111, 116, 45, 118, 97, 108, 105, 100, 33, 33]])
      = .error [110, 111, 116, 45, 118, 97, 108, 105, 100, 33, 33] :=
  strict_decode_first_invalid_aborts b64encode b64decode
    (packRows [[89, 87, 74, 106],
      [110, 111, 116, 45, 118, 97, 108, 105, 100, 33, 33]])
    [[89, 87, 74, 106]] []
    [110, 111, 116, 45, 118, 97, 108, 105, 100, 33, 33]
    rfl (by decide) (by decide) rfl

theorem strict_singleton_decodeRow (enc dec : List Nat → List Nat) (v d : List Nat)
    (h : executeImpl .base64Decode enc dec (packRows [v]) = .ok (packRows [d])) :
    decodeRow dec v = d := by
  obtain ⟨ws, hws, hc⟩ := executeImpl_ok_inv _ enc dec _ _ h
  have hmap := transcodeRows_strict_ok_inv enc dec _ _ hws
  rw [inputRows_pack] at hmap
  have hrows2 := congrArg inputRows hc
  rw [inputRows_pack, inputRows_pack] at hrows2
  rw [hmap] at hrows2
  simpa using hrows2.symm

/-- C3: for every input column, lenient decode never throws — it returns
the column `tryDecodeColumn dec input` — and row-wise: every row whose
non-empty content the decode primitive rejects becomes the empty string
(the speculative write is rolled back to the savepoint), while every row
on which strict decode would succeed with result `d` decodes to that same
`d`; in particular on rows `[valid1, invalid, valid2]` the result is
`[d1, [], d2]`. -/
theorem lenient_decode_failure_isolation (enc dec : List Nat → List Nat)
    (input : ColumnString) :
    executeImpl .tryBase64Decode enc dec input = .ok (tryDecodeColumn dec input)
    ∧ (∀ (i : Nat) (s : List Nat), (inputRows input)[i]? = some s → s ≠ [] → dec s = [] →
        (inputRows (tryDecodeColumn dec input))[i]? = some [])
    ∧ (∀ (i : Nat) (s d : List Nat), (inputRows input)[i]? = some s →
        executeImpl .base64Decode enc dec (packRows [s]) = .ok (packRows [d]) →
        (inputRows (tryDecodeColumn dec input))[i]? = some d)
    ∧ (∀ v1 bad v2 d1 d2 : List Nat, inputRows input = [v1, bad, v2] →
        executeImpl .base64Decode enc dec (packRows [v1]) = .ok (packRows [d1]) →
        executeImpl .base64Decode enc dec (packRows [v2]) = .ok (packRows [d2]) →
        dec bad = [] →
        tryDecodeColumn dec input = packRows [d1, [], d2]) := by
  have hbadrow : ∀ bad : List Nat, dec bad = [] → decodeRow dec bad = [] := by
    intro bad hdecbad
    by_cases hb : bad.length = 0
    · simp [decodeRow, hb]
    · simp [decodeRow, hb, hdecbad]
  refine ⟨executeImpl_lenient_eq enc dec input, ?_, ?_, ?_⟩
  · intro i s hs hne hdec
    rw [tryDecodeColumn, inputRows_pack, List.getElem?_map, hs]
    simp [hbadrow s hdec]
  · intro i s d hs hd
    rw [tryDecodeColumn, inputRows_pack, List.getElem?_map, hs]
    simp [strict_singleton_decodeRow enc dec s d hd]
  · intro v1 bad v2 d1 d2 hrows h1 h2 hdecbad
    have hd1 := strict_singleton_decodeRow enc dec v1 d1 h1
    have hd2 := strict_singleton_decodeRow enc dec v2 d2 h2
    simp [tryDecodeColumn, hrows, hd1, hd2, hbadrow bad hdecbad]

/-- C3 witness: lenient decode of `["YWJj", "!", "YQ=="]` returns a
column, the invalid middle row becomes empty, and the result is
`["abc", "", "a"]`. -/
theorem lenient_decode_failure_isolation_witness :
    executeImpl .tryBase64Decode b64encode b64decode
        (packRows [[89, 87, 74, 106], [33], [89, 81, 61, 61]])
      = .ok (tryDecodeColumn b64decode
          (packRows [[89, 87, 74, 106], [33], [89, 81, 61, 61]]))
    ∧ (inputRows (tryDecodeColumn b64decode
          (packRows [[89, 87, 74, 106], [33], [89, 81, 61, 61]])))[1]?
        = some ([] : List Nat)
    ∧ tryDecodeColumn b64decode (packRows [[89, 87, 74, 106], [33], [89, 81, 61, 61]])
      = packRows [[97, 98, 99], [], [97]] :=
  ⟨(lenient_decode_failure_isolation b64encode b64decode
      (packRows [[89, 87, 74, 106], [33], [89, 81, 61, 61]])).1,
    (lenient_decode_failure_isolation b64encode b64decode
      (packRows [[89, 87, 74, 106], [33], [89, 81, 61, 61]])).2.1
      1 [33] rfl (by decide) rfl,
    (lenient_decode_failure_isolation b64encode b64decode
      (packRows [[89, 87, 74, 106], [33], [89, 81, 61, 61]])).2.2.2
      [89, 87, 74, 106] [33] [89, 81, 61, 61] [97, 98, 99] [97]
      rfl rfl rfl rfl⟩

/-- C4: in each of the three modes, the reserve computed by
`Func::getBufferSize` on the input's aggregate sizes bounds the total
number of bytes the loop writes — every output row plus its one
terminator byte — so the final `resize(dst_pos - dst)` only ever shrinks
the buffer.  The primitives are assumed to satisfy their length
contracts: at most 4 output bytes per 3-byte block (plus one final
partial block) for encode, at most 3 bytes per 4-byte block (plus one)
for decode. -/
theorem buffer_size_upper_bound (enc dec : List Nat → List Nat)
    (input : ColumnString) (hwf : wellFormed input)
    (henc : ∀ s ∈ inputRows input, (enc s).length ≤ 4 * (s.length / 3 + 1))
    (hdec : ∀ s ∈ inputRows input, (dec s).length ≤ 3 * (s.length / 4 + 1)) :
    ∀ (f : Func) (c : ColumnString), executeImpl f enc dec input = .ok c →
      c.chars.length ≤ reserve f input := by
  intro f c hc
  obtain ⟨ws, hws, rfl⟩ := executeImpl_ok_inv f enc dec input c hc
  have hchars : input.chars.length
      = ((inputRows input).map List.length).sum + (inputRows input).length := by
    conv_lhs => rw [← hwf]
    simp [packRows, flattenRows_length]
  have hoffs : input.offsets.length = (inputRows input).length := by
    conv_lhs => rw [← hwf]
    simp [packRows, offsetsFrom_length]
  have hdecrow : ∀ s ∈ inputRows input,
      (decodeRow dec s).length ≤ 3 * (s.length / 4 + 1) := by
    intro s hs
    by_cases h0 : s.length = 0
    · simp [decodeRow, h0]
    · simpa [decodeRow, h0] using hdec s hs
  cases f with
  | base64Encode =>
    have hws' : ws = (inputRows input).map enc := by
      have := transcodeRows_encode enc dec (inputRows input)
      rw [hws] at this
      cases this
      rfl
    subst hws'
    have hsum := sum_enc_bound enc (inputRows input) henc
    simp only [reserve, Func.getBufferSize, Base64Encode.getBufferSize,
      packRows, flattenRows_length, hchars, hoffs, List.length_map,
      Nat.add_sub_cancel]
    omega
  | base64Decode =>
    have hws' : ws = (inputRows input).map (decodeRow dec) :=
      transcodeRows_strict_ok_inv enc dec _ _ hws
    subst hws'
    have hsum := sum_dec_bound (decodeRow dec) (inputRows input) hdecrow
    simp only [reserve, Func.getBufferSize, Base64Decode.getBufferSize,
      packRows, flattenRows_length, hchars, hoffs, List.length_map,
      Nat.add_sub_cancel]
    omega
  | tryBase64Decode =>
    have hws' : ws = (inputRows input).map (decodeRow dec) := by
      have := transcodeRows_lenient enc dec (inputRows input)
      rw [hws] at this
      cases this
      rfl
    subst hws'
    have hsum := sum_dec_bound (decodeRow dec) (inputRows input) hdecrow
    simp only [reserve, Func.getBufferSize, TryBase64Decode.getBufferSize,
      Base64Decode.getBufferSize, packRows, flattenRows_length, hchars, hoffs,
      List.length_map, Nat.add_sub_cancel]
    omega

/-- C4 witness: on the column `["YWJj", ""]` the written sizes (10, 5, 5
bytes) stay below the reserves (14, 11, 11) in the three modes. -/
theorem buffer_size_upper_bound_witness :
    (packRows [[87, 86, 100, 75, 97, 103, 61, 61], []]).chars.length
      ≤ reserve .base64Encode (packRows [[89, 87, 74, 106], []])
    ∧ (packRows [[97, 98, 99], []]).chars.length
      ≤ reserve .base64Decode (packRows [[89, 87, 74, 106], []])
    ∧ (packRows [[97, 98, 99], []]).chars.length
      ≤ reserve .tryBase64Decode (packRows [[89, 87, 74, 106], []]) :=
  ⟨buffer_size_upper_bound b64encode b64decode (packRows [[89, 87, 74, 106], []])
      rfl (by decide) (by decide) .base64Encode
      (packRows [[87, 86, 100, 75, 97, 103, 61, 61], []]) rfl,
    buffer_size_upper_bound b64encode b64decode (packRows [[89, 87, 74, 106], []])
      rfl (by decide) (by decide) .base64Decode
      (packRows [[97, 98, 99], []]) rfl,
    buffer_size_upper_bound b64encode b64decode (packRows [[89, 87, 74, 106], []])
      rfl (by decide) (by decide) .tryBase64Decode
      (packRows [[97, 98, 99], []]) rfl⟩

/-- C5 counterexample: on the single-row column `["abc"]`
(`total_input_bytes = 3`, `row_count = 1`) the code reserves
`Base64Encode::getBufferSize(4, 1) = 9` bytes, but the claim's formula
`((total_input_bytes - row_count) / 3 + row_count) * 4` plus `row_count`
terminator bytes gives `5`: the sizer is in fact called with the chars
size *including* terminators, and itself adds the terminator bytes. -/
theorem encode_buffer_formula_counterexample :
    ¬ reserve .base64Encode (packRows [[97, 98, 99]])
        = specEncodeOutputBound 3 1 + 1 := by
  decide

/-- C5 amended: the encode sizer receives `string_length =
total_input_bytes + row_count` (the chars size, terminators included), so
it computes exactly `(total_input_bytes / 3 + row_count) * 4 + row_count`
— the subtraction cancels the terminator bytes instead of shrinking the
terminator-free total, and the `row_count` terminator bytes are added
inside the sizer, not by the caller.  For an all-empty-row batch the
subtraction cannot underflow and the result stays a valid upper bound on
the bytes written (assuming the encode primitive writes nothing for
zero-length input). -/
theorem encode_buffer_size_exact (rs : List (List Nat))
    (enc dec : List Nat → List Nat) (henc0 : enc [] = []) :
    reserve .base64Encode (packRows rs)
      = ((rs.map List.length).sum / 3 + rs.length) * 4 + rs.length
    ∧ ((∀ s ∈ rs, s = []) →
        ∀ c, executeImpl .base64Encode enc dec (packRows rs) = .ok c →
          c.chars.length ≤ reserve .base64Encode (packRows rs)) := by
  have hres : reserve .base64Encode (packRows rs)
      = ((rs.map List.length).sum / 3 + rs.length) * 4 + rs.length := by
    simp only [reserve, Func.getBufferSize, Base64Encode.getBufferSize,
      packRows, flattenRows_length, offsetsFrom_length, Nat.add_sub_cancel]
  refine ⟨hres, ?_⟩
  intro hempty c hc
  obtain ⟨ws, hws, rfl⟩ := executeImpl_ok_inv _ enc dec _ c hc
  have hws' : ws = rs.map enc := by
    have := transcodeRows_encode enc dec rs
    rw [inputRows_pack] at hws
    rw [hws] at this
    cases this
    rfl
  subst hws'
  have hzero : ((rs.map enc).map List.length).sum = 0 := by
    apply List.sum_eq_zero
    intro x hx
    obtain ⟨t, ht, rfl⟩ := List.mem_map.mp hx
    obtain ⟨s, hs, rfl⟩ := List.mem_map.mp ht
    rw [hempty s hs, henc0]
    rfl
  rw [hres]
  simp only [packRows, flattenRows_length, hzero, List.length_map]
  omega

/-- C5 amended-claim witness: the two-empty-row batch. -/
theorem encode_buffer_size_exact_witness :
    reserve .base64Encode (packRows [[], []])
      = ((([[], []] : List (List Nat)).map List.length).sum / 3 + 2) * 4 + 2
    ∧ (packRows ([[], []] : List (List Nat))).chars.length
      ≤ reserve .base64Encode (packRows [[], []]) :=
  ⟨(encode_buffer_size_exact [[], []] b64encode b64decode rfl).1,
    (encode_buffer_size_exact [[], []] b64encode b64decode rfl).2 (by decide)
      (packRows [[], []]) rfl⟩

/-- C6: in each mode, the returned output column has exactly as many rows
(offsets) as the input column. -/
theorem row_count_preserved (enc dec : List Nat → List Nat) (input : ColumnString) :
    ∀ (f : Func) (c : ColumnString), executeImpl f enc dec input = .ok c →
      c.offsets.length = input.offsets.length := by
  intro f c hc
  obtain ⟨ws, hws, rfl⟩ := executeImpl_ok_inv f enc dec input c hc
  have h1 : ws.length = (inputRows input).length :=
    transcodeRows_length f enc dec _ _ hws
  have h2 : (inputRows input).length = input.offsets.length :=
    readRows_length _ _ 0 0
  simp [packRows, offsetsFrom_length, h1, h2]

/-- C6 witness: the three modes on the column `["YWJj", ""]` keep its two
rows. -/
theorem row_count_preserved_witness :
    (packRows [[87, 86, 100, 75, 97, 103, 61, 61], []]).offsets.length
      = (packRows [[89, 87, 74, 106], []]).offsets.length
    ∧ (packRows [[97, 98, 99], []]).offsets.length
      = (packRows [[89, 87, 74, 106], []]).offsets.length
    ∧ (packRows [[97, 98, 99], []]).offsets.length
      = (packRows [[89, 87, 74, 106], []]).offsets.length :=
  ⟨row_count_preserved b64encode b64decode (packRows [[89, 87, 74, 106], []])
      .base64Encode (packRows [[87, 86, 100, 75, 97, 103, 61, 61], []]) rfl,
    row_count_preserved b64encode b64decode (packRows [[89, 87, 74, 106], []])
      .base64Decode (packRows [[97, 98, 99], []]) rfl,
    row_count_preserved b64encode b64decode (packRows [[89, 87, 74, 106], []])
      .tryBase64Decode (packRows [[97, 98, 99], []]) rfl⟩

/-- C7: an empty input row yields an empty output row at the same index in
each mode (for encode this relies on the primitive writing nothing on
zero-length input, since the encode primitive is invoked unconditionally),
and a strict-decode error is never caused by an empty row — its payload is
always a non-empty row. -/
theorem empty_row_yields_empty_row (enc dec : List Nat → List Nat)
    (input : ColumnString) (i : Nat) (henc0 : enc [] = [])
    (hrow : (inputRows input)[i]? = some []) :
    (∀ c, executeImpl .base64Encode enc dec input = .ok c →
      (inputRows c)[i]? = some [])
    ∧ (∀ c, executeImpl .base64Decode enc dec input = .ok c →
      (inputRows c)[i]? = some [])
    ∧ (∀ c, executeImpl .tryBase64Decode enc dec input = .ok c →
      (inputRows c)[i]? = some [])
    ∧ (∀ e, executeImpl .base64Decode enc dec input = .error e → e ≠ []) := by
  refine ⟨?_, ?_, ?_, ?_⟩
  · intro c hc
    rw [executeImpl_encode_eq enc dec input] at hc
    cases hc
    rw [encodeColumn, inputRows_pack, List.getElem?_map, hrow]
    simp [henc0]
  · intro c hc
    obtain ⟨ws, hws, rfl⟩ := executeImpl_ok_inv _ enc dec input c hc
    have hws' : ws = (inputRows input).map (decodeRow dec) :=
      transcodeRows_strict_ok_inv enc dec _ _ hws
    subst hws'
    rw [inputRows_pack, List.getElem?_map, hrow]
    simp [decodeRow]
  · intro c hc
    rw [executeImpl_lenient_eq enc dec input] at hc
    cases hc
    rw [tryDecodeColumn, inputRows_pack, List.getElem?_map, hrow]
    simp [decodeRow]
  · intro e he
    exact transcodeRows_strict_error_ne enc dec _ e
      (executeImpl_err_inv _ enc dec input e he)

/-- C7 witness: the empty first row of `["", "YWJj"]` stays empty under
encode and under strict decode. -/
theorem empty_row_yields_empty_row_witness :
    (inputRows (packRows [[], [87, 86, 100, 75, 97, 103, 61, 61]]))[0]?
      = some ([] : List Nat)
    ∧ (inputRows (packRows [[], [97, 98, 99]]))[0]? = some ([] : List Nat) :=
  ⟨(empty_row_yields_empty_row b64encode b64decode
      (packRows [[], [89, 87, 74, 106]]) 0 rfl rfl).1
      (packRows [[], [87, 86, 100, 75, 97, 103, 61, 61]]) rfl,
    (empty_row_yields_empty_row b64encode b64decode
      (packRows [[], [89, 87, 74, 106]]) 0 rfl rfl).2.1
      (packRows [[], [97, 98, 99]]) rfl⟩

/-- C8: every output column returned by any of the three modes satisfies
the packed-column invariant: non-decreasing offsets, data length equal to
the final offset (0 for an empty batch), and a `'\0'` terminator byte at
the position each offset excludes. -/
theorem output_satisfies_column_invariant (enc dec : List Nat → List Nat)
    (input : ColumnString) :
    ∀ (f : Func) (c : ColumnString), executeImpl f enc dec input = .ok c →
      columnInvariant c := by
  intro f c hc
  obtain ⟨ws, _, rfl⟩ := executeImpl_ok_inv f enc dec input c hc
  exact packRows_invariant ws

/-- C8 witness: the invariant holds for the encode output of `["YWJj", ""]`. -/
theorem output_satisfies_column_invariant_witness :
    columnInvariant (packRows [[87, 86, 100, 75, 97, 103, 61, 61], []]) :=
  output_satisfies_column_invariant b64encode b64decode
    (packRows [[89, 87, 74, 106], []]) .base64Encode
    (packRows [[87, 86, 100, 75, 97, 103, 61, 61], []]) rfl

/-- C9: the input column is borrowed, never mutated: in the state-passing
embedding of the loop, the input component of the final state — reached
on success as well as on a thrown error — is byte-for-byte the original
column (the loop writes only the output buffers and its cursors). -/
theorem input_column_not_mutated (f : Func) (enc dec : List Nat → List Nat)
    (input : ColumnString) :
    (runRows f enc dec (initState input) input.offsets).1.input.chars = input.chars
    ∧ (runRows f enc dec (initState input) input.offsets).1.input.offsets
        = input.offsets
    ∧ (runRows f enc dec (initState input) input.offsets).1.input = input := by
  have h := runRows_input f enc dec input.offsets (initState input)
  exact ⟨by rw [h]; rfl, by rw [h]; rfl, h⟩

/-- C10: each operation is deterministic — a pure function of the input
column and the plugged-in primitives: equal input columns give equal
results, including equal error payloads for strict decode. -/
theorem transcode_deterministic (f : Func) (enc dec : List Nat → List Nat)
    (c1 c2 : ColumnString) (h : c1 = c2) :
    executeImpl f enc dec c1 = executeImpl f enc dec c2
    ∧ runRows f enc dec (initState c1) c1.offsets
        = runRows f enc dec (initState c2) c2.offsets := by
  subst h
  exact ⟨rfl, rfl⟩

/-- C10 witness: two runs of strict decode on equal concrete columns. -/
theorem transcode_deterministic_witness :
    executeImpl .base64Decode b64encode b64decode (packRows [[89, 87, 74, 106]])
      = executeImpl .base64Decode b64encode b64decode (packRows [[89, 87, 74, 106]])
    ∧ runRows .base64Decode b64encode b64decode
        (initState (packRows [[89, 87, 74, 106]])) (packRows [[89, 87, 74, 106]]).offsets
      = runRows .base64Decode b64encode b64decode
        (initState (packRows [[89, 87, 74, 106]])) (packRows [[89, 87, 74, 106]]).offsets :=
  transcode_deterministic .base64Decode b64encode b64decode
    (packRows [[89, 87, 74, 106]]) (packRows [[89, 87, 74, 106]]) rfl

end DB
